import Mathlib

/-!
Verification of the call-graph / stack-usage analyzer (src/main.rs) against
its natural-language specification.  The Rust code is shallowly embedded:
each definition below is a direct translation of the named source item.
Rust `u64` arithmetic is modelled by `Nat` (the program only adds and
compares stack-byte counts).  Strings are modelled by Lean `String` or
`List Char` as noted at each definition.
-/

namespace CallStack

/-- Embeds `enum Local` (src/main.rs, lines 1882-1886): local stack usage. -/
inductive Local where
  | Exact (n : Nat)
  | Unknown
deriving DecidableEq, Repr

/-- Embeds `enum Max` (src/main.rs, lines 1906-1910): computed max stack usage. -/
inductive Max where
  | Exact (n : Nat)
  | LowerBound (n : Nat)
deriving DecidableEq, Repr

/-- Embeds `impl Into<Max> for Local` (src/main.rs, lines 1897-1904). -/
def localToMax : Local → Max
  | Local.Exact n => Max.Exact n
  | Local.Unknown => Max.LowerBound 0

/-- Embeds `impl ops::Add<Local> for Max` (src/main.rs, lines 1912-1923). -/
def Max.addLocal : Max → Local → Max
  | Max.Exact lhs, Local.Exact rhs => Max.Exact (lhs + rhs)
  | Max.Exact lhs, Local.Unknown => Max.LowerBound lhs
  | Max.LowerBound lhs, Local.Exact rhs => Max.LowerBound (lhs + rhs)
  | Max.LowerBound lhs, Local.Unknown => Max.LowerBound lhs

/-- Embeds `impl ops::Add<Max> for Max` (src/main.rs, lines 1925-1936). -/
def Max.addMax : Max → Max → Max
  | Max.Exact lhs, Max.Exact rhs => Max.Exact (lhs + rhs)
  | Max.Exact lhs, Max.LowerBound rhs => Max.LowerBound (lhs + rhs)
  | Max.LowerBound lhs, Max.Exact rhs => Max.LowerBound (lhs + rhs)
  | Max.LowerBound lhs, Max.LowerBound rhs => Max.LowerBound (lhs + rhs)

/-- Embeds `fn max` (src/main.rs, lines 1942-1949): binary max over `Max`. -/
def Max.maxc : Max → Max → Max
  | Max.Exact lhs, Max.Exact rhs => Max.Exact (Nat.max lhs rhs)
  | Max.Exact lhs, Max.LowerBound rhs => Max.LowerBound (Nat.max lhs rhs)
  | Max.LowerBound lhs, Max.Exact rhs => Max.LowerBound (Nat.max lhs rhs)
  | Max.LowerBound lhs, Max.LowerBound rhs => Max.LowerBound (Nat.max lhs rhs)

/-- Embeds `fn max_of` (src/main.rs, lines 1938-1940): `iter.next()` followed
by a fold of `max` over the rest, so `none` on the empty sequence. -/
def maxOf : List Max → Option Max
  | [] => none
  | first :: rest => some (rest.foldl Max.maxc first)

/-- Spec-side projection: the numeric part carried by a `Max` value. -/
def Max.value : Max → Nat
  | Max.Exact n => n
  | Max.LowerBound n => n

/-- Spec-side projection: whether a `Max` value is tagged `Exact`. -/
def Max.isExact : Max → Bool
  | Max.Exact _ => true
  | Max.LowerBound _ => false

/-- Spec-side projection: the known numeric part of a `Local` value
(`Unknown` contributes 0, as the spec's addition law reads). -/
def Local.known : Local → Nat
  | Local.Exact n => n
  | Local.Unknown => 0

/-- Spec-side projection: whether a `Local` value is `Exact`. -/
def Local.isExactL : Local → Bool
  | Local.Exact _ => true
  | Local.Unknown => false

/-- The call graph as the analysis phase sees it (src/main.rs, `DiGraph<Node, ()>`):
node `i` carries `locals[i]`; `edges` lists directed `(source, target)` pairs. -/
structure Graph where
  locals : List Local
  edges : List (Nat × Nat)

/-- Local value of node `i` (`g[i].local`); out-of-range defaults to `Unknown`,
which never arises for indices of real nodes. -/
def Graph.localOf (g : Graph) (i : Nat) : Local :=
  g.locals.getD i Local.Unknown

/-- Embeds `g.neighbors_directed(i, Direction::Outgoing)`: targets of the
outgoing edges of `i` (iteration order does not affect the analysis results,
since `max` is commutative and associative). -/
def Graph.neighbors (g : Graph) (i : Nat) : List Nat :=
  (g.edges.filter (fun e => e.fst == i)).map Prod.snd

/-- Embeds the singleton-component step of the analysis (src/main.rs, lines
1704-1718) and, identically, the body of the acyclic topological pass (lines
1722-1736): `Max = max(out-neighbors' Max) + Local`, or `Local` lifted to
`Max` when there are no out-neighbors.  The source's
`.max.expect("UNREACHABLE")` on each neighbor is modelled by `filterMap`:
the reverse topological visit order guarantees every out-neighbor already
has a computed `Max`. -/
def processNode (g : Graph) (maxes : Nat → Option Max) (inode : Nat) :
    Nat → Option Max :=
  let neighborsMax := maxOf ((g.neighbors inode).filterMap maxes)
  fun k =>
    if k = inode then
      some (match neighborsMax with
            | some m => m.addLocal (g.localOf inode)
            | none => localToMax (g.localOf inode))
    else maxes k

/-- Embeds one iteration of the SCC loop (src/main.rs, lines 1664-1718).
`scc` is one strongly-connected component as returned by `kosaraju_scc`
(nonempty; the `[]` case is unreachable and returns the state unchanged).
The source's `max_of(...).expect("UNREACHABLE")` over the members' locals is
modelled by folding from the first member, and the `.max.expect` on each
outside neighbor by `filterMap` (see `processNode`). -/
def processScc (g : Graph) (maxes : Nat → Option Max) (scc : List Nat) :
    Nat → Option Max :=
  match scc with
  | [] => maxes
  | first :: rest =>
    let isACycle := decide ((first :: rest).length > 1)
      || (g.neighbors first).contains first
    if isACycle then
      let sccLocal0 := (rest.map (fun n => localToMax (g.localOf n))).foldl
        Max.maxc (localToMax (g.localOf first))
      -- the cumulative stack usage is only exact when all nodes do *not* use the stack
      let sccLocal := match sccLocal0 with
        | Max.Exact n => if n ≠ 0 then Max.LowerBound n else Max.Exact n
        | m => m
      let outside := ((first :: rest).map (fun i =>
        ((g.neighbors i).filter
          (fun nb => !((first :: rest).contains nb))).filterMap maxes)).flatten
      let neighborsMax := maxOf outside
      fun k =>
        if (first :: rest).contains k then
          some (match neighborsMax with
                | some m => m.addMax sccLocal
                | none => sccLocal)
        else maxes k
    else
      processNode g maxes first

/-- Embeds the cyclic-graph analysis (src/main.rs, lines 1660-1719): fold the
per-SCC step over the components, which `kosaraju_scc` yields in reverse
topological order (supplied here as the `sccs` argument). -/
def analyzeCyclic (g : Graph) (sccs : List (List Nat)) : Nat → Option Max :=
  sccs.foldl (processScc g) (fun _ => none)

/-- Embeds the acyclic-graph analysis (src/main.rs, lines 1720-1737): visit
nodes in topological order of the reversed graph (callees before callers,
supplied here as the `order` argument) and apply the per-node step. -/
def analyzeAcyclic (g : Graph) (order : List Nat) : Nat → Option Max :=
  order.foldl (processNode g) (fun _ => none)

/-- Scenario graph: three functions A→B→C with locals 4, 8, 16
(nodes 0, 1, 2). -/
def chainGraph : Graph :=
  ⟨[Local.Exact 4, Local.Exact 8, Local.Exact 16], [(0, 1), (1, 2)]⟩

/-- Scenario graph: a two-node cycle A→B→A with locals 0, 0. -/
def cycleZeroGraph : Graph :=
  ⟨[Local.Exact 0, Local.Exact 0], [(0, 1), (1, 0)]⟩

/-- Scenario graph: a two-node cycle A→B→A with locals 8, 4. -/
def cycleNonzeroGraph : Graph :=
  ⟨[Local.Exact 8, Local.Exact 4], [(0, 1), (1, 0)]⟩

/-- Embeds the ad-hoc stack-size injection table (src/main.rs, lines
671-751): target-specific hard-coded stack sizes for runtime helpers,
consulted only when the symbol has no `stack_sizes` record. -/
def adHocStack (target name : String) : Option Nat :=
  if target = "thumbv6m-none-eabi" then
    if name ∈ ["__aeabi_memcpy", "__aeabi_memset", "__aeabi_memclr",
               "__aeabi_memclr4", "__aeabi_f2uiz"] then some 0
    else if name ∈ ["__aeabi_memcpy4", "__aeabi_memset4", "__aeabi_f2iz",
                    "__aeabi_fadd", "__aeabi_fdiv", "__aeabi_fmul",
                    "__aeabi_fsub"] then some 8
    else if name ∈ ["memcmp", "__aeabi_fcmpgt", "__aeabi_fcmplt",
                    "__aeabi_i2f", "__aeabi_ui2f"] then some 16
    else if name = "__addsf3" then some 32
    else if name = "__divsf3" then some 40
    else if name = "__mulsf3" then some 48
    else none
  else if target ∈ ["thumbv7m-none-eabi", "thumbv7em-none-eabi",
                    "thumbv7em-none-eabihf"] then
    if name ∈ ["__aeabi_memclr", "__aeabi_memclr4"] then some 0
    else if name ∈ ["__aeabi_memcpy", "__aeabi_memcpy4", "memcmp"] then some 16
    else if name ∈ ["__aeabi_memset", "__aeabi_memset4"] then some 8
    else if name ∈ ["__aeabi_f2iz", "__aeabi_f2uiz", "__aeabi_fadd",
                    "__aeabi_fcmpgt", "__aeabi_fcmplt", "__aeabi_fdiv",
                    "__aeabi_fmul", "__aeabi_fsub", "__aeabi_i2f",
                    "__aeabi_ui2f"] ∧ target = "thumbv7m-none-eabi"
      then some 0
    else if name ∈ ["__addsf3", "__mulsf3"] ∧ target = "thumbv7m-none-eabi"
      then some 16
    else if name = "__divsf3" ∧ target = "thumbv7m-none-eabi" then some 20
    else none
  else none

/-- Embeds the per-symbol stack lookup of Phase A (src/main.rs, lines
666-751): `stack_sizes.get(canonical_name)`, falling back to the ad-hoc
table when absent.  `stackSizes` models the `stack_sizes` dictionary as an
association list. -/
def symbolStack (stackSizes : List (String × Nat)) (target name : String) :
    Option Nat :=
  match stackSizes.lookup name with
  | some n => some n
  | none => adHocStack target name

/-- Embeds the node construction of Phase A (src/main.rs, line 770 with the
`Node` constructor of lines 1868-1879): `Local = Exact(size)` when a size was
found, else `Local = Unknown`. -/
def nodeLocal (stackSizes : List (String × Nat)) (target name : String) :
    Local :=
  match symbolStack stackSizes target name with
  | some n => Local.Exact n
  | none => Local.Unknown

/-- Embeds the computation of `has_stack_usage_info` (src/main.rs, lines 632,
666-763): the flag becomes true exactly when some canonical symbol name has a
`stack_sizes` record; the ad-hoc injection path does not set it. -/
def hasStackUsageInfo (stackSizes : List (String × Nat))
    (syms : List String) : Bool :=
  syms.any (fun n => (stackSizes.lookup n).isSome)

/-- Embeds the skip decision of the analysis (src/main.rs, lines 1657-1660):
the max-stack-usage analysis is skipped (with an error logged, the graph
still emitted) iff `has_stack_usage_info` is false. -/
def analysisSkipped (stackSizes : List (String × Nat))
    (syms : List String) : Bool :=
  !hasStackUsageInfo stackSizes syms

/-- Embeds the Phase D reconciliation of one analyzed function (src/main.rs,
lines 1240-1293): `llvm` is the node's IR-derived `Local`, `ourStack` the
disassembler's `our_stack`, `modifiesSp` its SP-modification flag.  A failed
`assert!` is modelled as `Except.error ()`; the logged warning on the
override path is not modelled.  Returns the node's reconciled `Local`. -/
def reconcile (llvm : Local) (ourStack : Option Nat) (modifiesSp : Bool) :
    Except Unit Local :=
  -- sanity check (lines 1240-1251): our own measurements must agree
  match ourStack with
  | some s =>
    if (decide (s ≠ 0)) ≠ modifiesSp then Except.error ()
    else
      match llvm with
      | Local.Exact m =>
        if m = 0 ∧ s ≠ 0 then
          -- this could be a naked + asm function; override LLVM's result
          if (decide (s ≠ 0)) ≠ modifiesSp then Except.error ()
          else Except.ok (Local.Exact s)
        else if m = s then
          if (decide (m ≠ 0)) ≠ modifiesSp then Except.error ()
          else Except.ok (Local.Exact m)
        else Except.error ()
      | Local.Unknown => Except.ok (Local.Exact s)
  | none =>
    match llvm with
    | Local.Exact m =>
      if (decide (m ≠ 0)) ≠ modifiesSp then Except.error ()
      else Except.ok (Local.Exact m)
    | Local.Unknown =>
      if !modifiesSp then Except.ok (Local.Exact 0)
      else Except.ok Local.Unknown

/-- Embeds `fn dehash` (src/main.rs, lines 1977-1994).  Strings are modelled
as character lists (the suffix the function inspects is ASCII, so byte and
character indexing agree on it): if the string is longer than
`HASH_LENGTH = 19` and its 19-character tail starts with `::h`, return the
prefix before the tail, else `none`. -/
def dehash (s : List Char) : Option (List Char) :=
  let len := s.length
  if len > 19 then
    if (s.drop (len - 19)).take 3 = [':', ':', 'h'] then
      some (s.take (len - 19))
    else none
  else none

/-- Spec-side predicate: `c` is a hexadecimal digit. -/
def isHexDigitChar (c : Char) : Bool :=
  c.isDigit || (('a' ≤ c) && (c ≤ 'f')) || (('A' ≤ c) && (c ≤ 'F'))

/-- Spec-side checker, written from the spec's words: the string ends in a
suffix consisting of `::h` followed by 16 hexadecimal characters (and has a
nonempty prefix before it). -/
def endsInHashSuffix (s : List Char) : Bool :=
  decide (s.length > 19)
    && decide ((s.drop (s.length - 19)).take 3 = [':', ':', 'h'])
    && ((s.drop (s.length - 19)).drop 3).all isHexDigitChar

/-- Embeds the `ambiguous` occurrence count (src/main.rs, lines 605,
765-768): how many canonical symbol names, once demangled (`dm` stands for
the external `rustc_demangle::demangle`) and de-hashed, yield `d`. -/
def ambiguousCount (dm : List Char → List Char) (names : List (List Char))
    (d : List Char) : Nat :=
  (names.filter (fun n => dehash (dm n) == some d)).length

/-- Embeds the display-name shortening of one node (src/main.rs, lines
1740-1748): demangle the node's name, de-hash it, and use the de-hashed form
exactly when its `ambiguous` count is 1.  (`ambiguous[dehashed]` in the
source indexes a map whose entry exists for every counted name; the count
function defaults to 0 for names never counted.) -/
def displayName (dm : List Char → List Char) (names : List (List Char))
    (name : List Char) : List Char :=
  match dehash (dm name) with
  | some d => if ambiguousCount dm names d = 1 then d else name
  | none => name

/-- The graph as the START-filtering step sees it (src/main.rs, lines
1591-1655): node `i` carries `names[i]` (names are distinct, mirroring the
`indices` map), edges are `(source, target)` pairs. -/
structure NGraph where
  names : List String
  edges : List (Nat × Nat)

/-- Outgoing neighbors of node `i` in an `NGraph`. -/
def NGraph.neighborsN (g : NGraph) (i : Nat) : List Nat :=
  (g.edges.filter (fun e => e.fst == i)).map Prod.snd

/-- Depth-first traversal worker, embedding `petgraph::visit::Dfs` (used at
src/main.rs, lines 1623-1645): pop a node from the stack; if unvisited, mark
it and push its out-neighbors.  `fuel` is an upper bound on iterations
(every iteration pops one entry and at most `edges + 1` entries are ever
pushed). -/
def dfsAux (g : NGraph) : Nat → List Nat → List Nat → List Nat
  | 0, _, visited => visited
  | _ + 1, [], visited => visited
  | fuel + 1, x :: stack, visited =>
    if visited.contains x then dfsAux g fuel stack visited
    else dfsAux g fuel (g.neighborsN x ++ stack) (visited ++ [x])

/-- Nodes reachable from `start` by depth-first traversal, in visit order. -/
def reachableFrom (g : NGraph) (start : Nat) : List Nat :=
  dfsAux g (g.edges.length + g.names.length + 2) [start] []

/-- Embeds the START lookup (src/main.rs, lines 1592-1614): exact node-name
match first; otherwise collect the nodes whose demangled name (`dm` stands
for the external `rustc_demangle::demangle`, which returns non-mangled input
verbatim) starts with the given name followed by `::h`; more than one hit is
an error (`none`, graph left unfiltered), else the first hit's index. -/
def startLookup (dm : String → String) (g : NGraph) (start : String) :
    Option Nat :=
  match g.names.findIdx? (fun n => n == start) with
  | some i => some i
  | none =>
    let hits := g.names.filter
      (fun key => (start ++ "::h").toList.isPrefixOf (dm key).toList)
    if hits.length > 1 then none
    else hits.head?.bind (fun key => g.names.findIdx? (fun n => n == key))

/-- Embeds the graph-filtering step (src/main.rs, lines 1591-1655), projected
to the set of surviving nodes: when a unique START node is found the graph is
replaced by the subgraph of nodes reachable from it (the source copies each
reached node and all edges among them into a fresh graph); when the lookup
fails or is ambiguous an error is reported and the graph stays whole. -/
def keptNodes (dm : String → String) (g : NGraph) (start : Option String) :
    List Nat :=
  match start with
  | none => List.range g.names.length
  | some s =>
    match startLookup dm g s with
    | some i => reachableFrom g i
    | none => List.range g.names.length

/-- Embeds `struct Node` (src/main.rs, lines 1860-1866), restricted to the
fields the invariants mention. -/
structure NodeW where
  name : String
  nlocal : Local
  dashed : Bool
deriving DecidableEq, Repr

/-- Embeds the `Node` constructor function (src/main.rs, lines 1868-1879):
`local = stack.map(Local::Exact).unwrap_or(Local::Unknown)`. -/
def mkNode (name : String) (stack : Option Nat) (dashed : Bool) : NodeW :=
  ⟨name, (stack.map Local.Exact).getD Local.Unknown, dashed⟩

/-- Embeds the metadata kinds consulted when synthesizing dispatch nodes
(src/main.rs, lines 1381-1453; the `Set` kind is expanded before this point
and `unreachable!` here). -/
inductive MetaKind where
  | fn (sig : String)
  | dyn (traitName method : String)
  | drp (traitName : String)
deriving DecidableEq, Repr

/-- Embeds the nodes created for one metadata id (src/main.rs, lines
1381-1454): one dashed dispatch node with stack `Some(0)`, plus possibly a
`?` sentinel node (`stack = None`, not dashed) when callees are missing or,
for `Fn` metadata, when the program has non-Rust symbols. -/
def metaNodesFor (hasNonRust : Bool) (kind : MetaKind) (hasCallees : Bool) :
    List NodeW :=
  match kind with
  | MetaKind.fn sig =>
    mkNode sig (some 0) true ::
      (if hasCallees then
        (if hasNonRust then [mkNode "?" none false] else [])
      else [mkNode "?" none false])
  | MetaKind.dyn t m =>
    mkNode ("(dyn " ++ t ++ ")." ++ m) (some 0) true ::
      (if hasCallees then [] else [mkNode "?" none false])
  | MetaKind.drp t =>
    mkNode ("drop(dyn " ++ t ++ ")") (some 0) true ::
      (if hasCallees then [] else [mkNode "?" none false])

/-- Embeds the node creation of the metadata-driven dispatch path
(src/main.rs, lines 1353-1454): the formatter dispatch node (when there are
formatter callers) followed by the nodes for each metadata id; `metas` pairs
each id's kind with whether `meta_groups` has callees for it. -/
def metaPathNodes (hasNonRust fmtCallers : Bool)
    (metas : List (MetaKind × Bool)) : List NodeW :=
  (if fmtCallers then
    [mkNode "fn(&fmt::Void, &mut fmt::Formatter) -> fmt::Result" (some 0) true]
  else []) ++
  (metas.map (fun km => metaNodesFor hasNonRust km.fst km.snd)).flatten

/-- Embeds the node creation of the signature-driven dispatch path
(src/main.rs, lines 1511-1588): for each indirect-call signature whose
`called` flag is set, one dashed node named by the signature suffixed `*`
(plus a `?` sentinel when the program has untyped symbols); for each
dynamic-dispatch signature whose `called` flag is set, one dashed node named
by the erased signature. -/
def sigPathNodes (hasUntyped : Bool) (indirectSigs dynamicSigs :
    List (String × Bool)) : List NodeW :=
  ((indirectSigs.map (fun sc =>
    if sc.snd then
      mkNode (sc.fst ++ "*") (some 0) true ::
        (if hasUntyped then [mkNode "?" none false] else [])
    else [])).flatten) ++
  ((dynamicSigs.map (fun sc =>
    if sc.snd then [mkNode sc.fst (some 0) true] else [])).flatten)

/-- Embeds the edge-adding pattern shared by the IR direct-call pass and the
Phase D branch passes (src/main.rs, lines 994-999, 1098-1101, 1322-1325,
1340-1343): for each callee in order, add the edge `(caller, callee)` only
if the callee is not yet in the caller's seen-set, then insert it.  The
state is `(seen, edges)`; `seen` models the `HashSet` entry of the shared
`edges: HashMap<NodeIdx, HashSet<NodeIdx>>` map (line 931). -/
def addCallEdges (caller : Nat) (st : List Nat × List (Nat × Nat))
    (callees : List Nat) : List Nat × List (Nat × Nat) :=
  callees.foldl (fun st c =>
    if st.fst.contains c then st
    else (c :: st.fst, st.snd ++ [(caller, c)])) st

/-- Embeds the three deduplicated edge-discovery passes over one caller
(src/main.rs: IR direct calls at lines 934-1101, then Phase D
branch-and-link targets at 1313-1326 and tail-call targets at 1328-1345),
threading the one per-caller seen-set through all of them. -/
def callPasses (caller : Nat) (irCallees blTargets bTargets : List Nat) :
    List Nat × List (Nat × Nat) :=
  addCallEdges caller
    (addCallEdges caller
      (addCallEdges caller ([], []) irCallees) blTargets) bTargets

/-- C1: addition over `Max × Local` and `Max × Max` satisfies
`Exact(a) + Exact(b) = Exact(a+b)`; whenever an operand is `LowerBound` or
`Unknown`, the result is `LowerBound` of the sum of the known numeric parts
(an `Unknown` `Local` contributes 0, a `LowerBound` contributes its bound),
for all operand values. -/
theorem c1_addition_laws :
    (∀ a b : Nat,
      Max.addMax (Max.Exact a) (Max.Exact b) = Max.Exact (a + b) ∧
      Max.addLocal (Max.Exact a) (Local.Exact b) = Max.Exact (a + b)) ∧
    (∀ (m : Max) (l : Local), m.isExact = false ∨ l.isExactL = false →
      m.addLocal l = Max.LowerBound (m.value + l.known)) ∧
    (∀ m m' : Max, m.isExact = false ∨ m'.isExact = false →
      m.addMax m' = Max.LowerBound (m.value + m'.value)) := by
  refine ⟨fun a b => ⟨rfl, rfl⟩, ?_, ?_⟩
  · rintro m l h
    cases m <;> cases l <;>
      simp_all [Max.addLocal, Max.value, Local.known, Max.isExact,
        Local.isExactL]
  · rintro m m' h
    cases m <;> cases m' <;>
      simp_all [Max.addMax, Max.value, Max.isExact]

/-- C1 witness: the lower-bound branches of the addition laws at concrete
operands. -/
theorem c1_addition_laws_witness :
    Max.addLocal (Max.LowerBound 3) (Local.Exact 4) = Max.LowerBound 7 ∧
    Max.addLocal (Max.Exact 3) Local.Unknown = Max.LowerBound 3 ∧
    Max.addMax (Max.Exact 2) (Max.LowerBound 5) = Max.LowerBound 7 := by
  refine ⟨?_, ?_, ?_⟩
  · exact c1_addition_laws.2.1 (Max.LowerBound 3) (Local.Exact 4)
      (Or.inl rfl)
  · exact c1_addition_laws.2.1 (Max.Exact 3) Local.Unknown (Or.inr rfl)
  · exact c1_addition_laws.2.2 (Max.Exact 2) (Max.LowerBound 5)
      (Or.inr rfl)

/-- C2: `max_of` of an empty iterator is `None`; of a non-empty one it is
the fold of the binary `max`, whose result carries the larger numeric part
and is `Exact` exactly when both operands are `Exact` (a `LowerBound`
operand makes the result `LowerBound`). -/
theorem c2_max_of_fold :
    maxOf [] = none ∧
    (∀ (x : Max) (xs : List Max),
      maxOf (x :: xs) = some (xs.foldl Max.maxc x)) ∧
    (∀ a b : Max,
      (Max.maxc a b).value = Nat.max a.value b.value ∧
      (Max.maxc a b).isExact = (a.isExact && b.isExact)) := by
  refine ⟨rfl, fun x xs => rfl, fun a b => ?_⟩
  cases a <;> cases b <;> simp [Max.maxc, Max.value, Max.isExact]

/-- C3: for every non-trivial SCC (size ≥ 2 or a self-edge on its single
node), the analysis computes the max `m` of the members' locals lifted to
`Max`, downgrades it to `LowerBound` exactly when it is `Exact(n)` with
`n > 0`, and sets every member's `Max` to `outside_max + scc_local` (or
`scc_local` alone without outside neighbors); in particular the 0/0 cycle
yields `Exact 0` for both nodes and the 8/4 cycle yields `LowerBound 8`. -/
theorem c3_scc_analysis :
    (∀ (g : Graph) (maxes : Nat → Option Max) (first : Nat)
      (rest : List Nat) (k : Nat) (m : Max),
      ((first :: rest).length > 1 ∨ first ∈ g.neighbors first) →
      k ∈ first :: rest →
      maxOf ((first :: rest).map (fun n => localToMax (g.localOf n)))
        = some m →
      processScc g maxes (first :: rest) k =
        some
          (let sccLocal :=
            if m.isExact = true ∧ 0 < m.value then Max.LowerBound m.value
            else m
          match maxOf (((first :: rest).map (fun i =>
              ((g.neighbors i).filter
                (fun nb => !((first :: rest).contains nb))).filterMap
                  maxes)).flatten) with
          | some om => om.addMax sccLocal
          | none => sccLocal)) ∧
    (analyzeCyclic cycleZeroGraph [[0, 1]] 0 = some (Max.Exact 0) ∧
      analyzeCyclic cycleZeroGraph [[0, 1]] 1 = some (Max.Exact 0)) ∧
    (analyzeCyclic cycleNonzeroGraph [[0, 1]] 0 = some (Max.LowerBound 8) ∧
      analyzeCyclic cycleNonzeroGraph [[0, 1]] 1
        = some (Max.LowerBound 8)) := by
  refine ⟨?_, ⟨rfl, rfl⟩, ⟨rfl, rfl⟩⟩
  intro g maxes first rest k m hcyc hk hm
  have hm' : m = (rest.map (fun n => localToMax (g.localOf n))).foldl
      Max.maxc (localToMax (g.localOf first)) := by
    simpa [maxOf] using hm.symm
  subst hm'
  have hcyc' : (decide ((first :: rest).length > 1)
      || (g.neighbors first).contains first) = true := by
    rcases hcyc with h | h
    · have h' : 0 < rest.length := by
        simpa using h
      simp [h']
    · simp [h]
  have hk' : (first :: rest).contains k = true := by simp [hk]
  simp only [processScc, hcyc', if_true, hk']
  cases hval : (rest.map fun n => localToMax (g.localOf n)).foldl Max.maxc
      (localToMax (g.localOf first)) with
  | Exact n =>
    rcases Nat.eq_zero_or_pos n with h0 | hpos
    · subst h0
      simp [Max.isExact, Max.value]
    · simp [Max.isExact, Max.value, hpos, Nat.pos_iff_ne_zero.mp hpos]
  | LowerBound n => simp [Max.isExact]

/-- C3 witness: the general SCC statement applied to the 8/4 two-node
cycle, whose members receive `Max = LowerBound 8`. -/
theorem c3_scc_analysis_witness :
    processScc cycleNonzeroGraph (fun _ => none) [0, 1] 0
      = some (Max.LowerBound 8) := by
  have h := c3_scc_analysis.1 cycleNonzeroGraph (fun _ => none) 0 [1] 0
    (Max.Exact 8) (Or.inl (by decide)) (by decide) (by decide)
  simpa using h

/-- C4: a singleton SCC without a self-edge — and every node of the acyclic
topological pass — receives `Max = max(out-neighbors' Max) + Local`, or
`Local` lifted to `Max` without out-neighbors; the chain A→B→C with locals
4, 8, 16 yields `Exact 28`, `Exact 24`, `Exact 16`. -/
theorem c4_singleton_and_topo :
    (∀ (g : Graph) (maxes : Nat → Option Max) (i : Nat),
      i ∉ g.neighbors i →
      processScc g maxes [i] i =
        some (match maxOf ((g.neighbors i).filterMap maxes) with
              | some m => m.addLocal (g.localOf i)
              | none => localToMax (g.localOf i))) ∧
    (∀ (g : Graph) (maxes : Nat → Option Max) (i : Nat),
      processNode g maxes i i =
        some (match maxOf ((g.neighbors i).filterMap maxes) with
              | some m => m.addLocal (g.localOf i)
              | none => localToMax (g.localOf i))) ∧
    (analyzeAcyclic chainGraph [2, 1, 0] 0 = some (Max.Exact 28) ∧
      analyzeAcyclic chainGraph [2, 1, 0] 1 = some (Max.Exact 24) ∧
      analyzeAcyclic chainGraph [2, 1, 0] 2 = some (Max.Exact 16)) := by
  have hnode : ∀ (g : Graph) (maxes : Nat → Option Max) (i : Nat),
      processNode g maxes i i =
        some (match maxOf ((g.neighbors i).filterMap maxes) with
              | some m => m.addLocal (g.localOf i)
              | none => localToMax (g.localOf i)) := by
    intro g maxes i
    simp [processNode]
  refine ⟨?_, hnode, rfl, rfl, rfl⟩
  intro g maxes i hself
  have hself' : (g.neighbors i).contains i = false := by
    simpa using hself
  simp only [processScc, List.length_cons, List.length_nil, hself']
  simpa using hnode g maxes i

/-- C4 witness: the singleton statement applied to the sink of the chain
graph, which receives `Max = Exact 16`. -/
theorem c4_singleton_and_topo_witness :
    processScc chainGraph (fun _ => none) [2] 2 = some (Max.Exact 16) := by
  have h := c4_singleton_and_topo.1 chainGraph (fun _ => none) 2 (by decide)
  simpa using h

/-- C5 counterexample: on target `thumbv6m-none-eabi` with an empty
`stack_sizes` table, the symbol `memcmp` receives `Local = Exact 16` through
the ad-hoc injection, yet `has_stack_usage_info` stays false and the
analysis is skipped — refuting "skipped exactly when no node carries an
Exact local" and its converse. -/
theorem c5_counterexample :
    nodeLocal [] "thumbv6m-none-eabi" "memcmp" = Local.Exact 16 ∧
    hasStackUsageInfo [] ["memcmp"] = false ∧
    analysisSkipped [] ["memcmp"] = true := by
  refine ⟨by decide, by decide, by decide⟩

/-- C5 (amended): the analysis is skipped exactly when no symbol has a
record in the `stack_sizes` table; a record for a symbol always yields
`Local = Exact` of the recorded size, but ad-hoc injected sizes give a node
an `Exact` local without enabling the analysis. -/
theorem c5_skip_iff_no_records :
    (∀ (stackSizes : List (String × Nat)) (syms : List String),
      analysisSkipped stackSizes syms = true ↔
        ∀ n ∈ syms, stackSizes.lookup n = none) ∧
    (∀ (stackSizes : List (String × Nat)) (target n : String) (v : Nat),
      stackSizes.lookup n = some v →
      nodeLocal stackSizes target n = Local.Exact v) := by
  constructor
  · intro ss syms
    constructor
    · intro h n hn
      cases hl : ss.lookup n with
      | none => rfl
      | some v =>
        exfalso
        have hinfo : hasStackUsageInfo ss syms = true := by
          unfold hasStackUsageInfo
          rw [List.any_eq_true]
          exact ⟨n, hn, by simp [hl]⟩
        unfold analysisSkipped at h
        rw [hinfo] at h
        simp at h
    · intro h
      unfold analysisSkipped hasStackUsageInfo
      simp only [Bool.not_eq_true']
      rw [List.any_eq_false]
      intro n hn
      rw [h n hn]
      simp
  · intro ss t n v h
    simp [nodeLocal, symbolStack, h]

/-- C5 witness: a symbol with a stack-size record gets an `Exact` local of
the recorded size. -/
theorem c5_skip_iff_no_records_witness :
    nodeLocal [("foo", 24)] "other-target" "foo" = Local.Exact 24 :=
  c5_skip_iff_no_records.2 [("foo", 24)] "other-target" "foo" 24 (by decide)

/-- C6: Phase D reconciliation — when the IR says `Exact(0)` and the
disassembler measures `s > 0` (hence reports SP modification), the local is
overridden to `Exact(s)`; when the IR says `Exact(m)` with `m > 0` and the
disassembler measures any `s ≠ m` (including 0), the run fails with a fatal
consistency error, whatever the SP flag. -/
theorem c6_phase_d_reconciliation :
    (∀ s : Nat, 0 < s →
      reconcile (Local.Exact 0) (some s) true = Except.ok (Local.Exact s)) ∧
    (∀ (m s : Nat) (b : Bool), 0 < m → s ≠ m →
      reconcile (Local.Exact m) (some s) b = Except.error ()) := by
  constructor
  · intro s hs
    simp [reconcile, Nat.pos_iff_ne_zero.mp hs]
  · intro m s b hm hsm
    have hm' : ¬(m = 0) := Nat.pos_iff_ne_zero.mp hm
    have hsm' : ¬(m = s) := fun h => hsm h.symm
    by_cases hs0 : s = 0 <;> cases b <;> simp [reconcile, hs0, hm', hsm']

/-- C6 witness: the override and the mismatch failure at concrete inputs. -/
theorem c6_phase_d_reconciliation_witness :
    reconcile (Local.Exact 0) (some 12) true = Except.ok (Local.Exact 12) ∧
    reconcile (Local.Exact 8) (some 4) true = Except.error () := by
  constructor
  · exact c6_phase_d_reconciliation.1 12 (by decide)
  · exact c6_phase_d_reconciliation.2 8 4 true (by decide) (by decide)

/-- C7 counterexample: `dehash` strips a 19-character tail starting with
`::h` without checking that the 16 following characters are hexadecimal —
it strips `::hZZZZZZZZZZZZZZZZ` although `Z` is not a hex digit, so the
claim "returns nothing for any string that does not end in `::h` plus 16
hex characters" fails. -/
theorem c7_counterexample :
    dehash (String.toList "aaaa::hZZZZZZZZZZZZZZZZ")
      = some (String.toList "aaaa") ∧
    endsInHashSuffix (String.toList "aaaa::hZZZZZZZZZZZZZZZZ") = false := by
  refine ⟨by decide, by decide⟩

/-- C7 (amended): `dehash` strips a trailing 19-character suffix that begins
with `::h`, without validating the remaining 16 characters as hexadecimal,
and returns the (nonempty) prefix; it returns nothing otherwise.  The
stripped form becomes the display name exactly when its occurrence count
among the de-hashed demangled canonical names equals one, otherwise the
hashed form is kept. -/
theorem c7_dehash_display :
    (∀ s t : List Char,
      dehash s = some t ↔
        ∃ suf : List Char, s = t ++ suf ∧ suf.length = 19 ∧
          suf.take 3 = [':', ':', 'h'] ∧ t ≠ []) ∧
    (∀ (dm : List Char → List Char) (names : List (List Char))
      (name d : List Char), dehash (dm name) = some d →
      displayName dm names name =
        (if ambiguousCount dm names d = 1 then d else name)) ∧
    (∀ (dm : List Char → List Char) (names : List (List Char))
      (name : List Char), dehash (dm name) = none →
      displayName dm names name = name) := by
  refine ⟨?_, ?_, ?_⟩
  · intro s t
    constructor
    · intro h
      simp only [dehash] at h
      by_cases hlen : s.length > 19
      · rw [if_pos hlen] at h
        by_cases hsuf : (s.drop (s.length - 19)).take 3 = [':', ':', 'h']
        · rw [if_pos hsuf] at h
          injection h with h
          subst h
          refine ⟨s.drop (s.length - 19),
            (List.take_append_drop _ s).symm, ?_, hsuf, ?_⟩
          · rw [List.length_drop]
            omega
          · intro hnil
            have hzero : (s.take (s.length - 19)).length = 0 := by
              rw [hnil]
              rfl
            rw [List.length_take] at hzero
            omega
        · rw [if_neg hsuf] at h
          exact absurd h (by simp)
      · rw [if_neg hlen] at h
        exact absurd h (by simp)
    · rintro ⟨suf, rfl, hlen, htake, hne⟩
      have hl : (t ++ suf).length = t.length + 19 := by
        simp [hlen]
      have h1 : (t ++ suf).length > 19 := by
        rw [hl]
        have := List.length_pos.mpr hne
        omega
      have hix : (t ++ suf).length - 19 = t.length := by
        rw [hl]
        omega
      have hdrop : (t ++ suf).drop ((t ++ suf).length - 19) = suf := by
        rw [hix]
        exact List.drop_left t suf
      have htk : (t ++ suf).take ((t ++ suf).length - 19) = t := by
        rw [hix]
        exact List.take_left t suf
      simp only [dehash]
      rw [if_pos h1, hdrop, if_pos htake, htk]
  · intro dm names name d h
    simp [displayName, h]
  · intro dm names name h
    simp [displayName, h]

/-- C7 witness: a genuinely hashed name is stripped, and since it is the
only counted occurrence, the stripped form becomes the display name. -/
theorem c7_dehash_display_witness :
    dehash (String.toList "foo::bar::h0123456789abcdef")
      = some (String.toList "foo::bar") ∧
    displayName id [String.toList "foo::bar::h0123456789abcdef"]
      (String.toList "foo::bar::h0123456789abcdef")
      = String.toList "foo::bar" := by
  constructor
  · exact (c7_dehash_display.1 (String.toList "foo::bar::h0123456789abcdef")
      (String.toList "foo::bar")).mpr
      ⟨String.toList "::h0123456789abcdef", by decide, by decide, by decide,
        by decide⟩
  · have h := c7_dehash_display.2.1 id
      [String.toList "foo::bar::h0123456789abcdef"]
      (String.toList "foo::bar::h0123456789abcdef")
      (String.toList "foo::bar") (by decide)
    simpa using h

/-- C8: START lookup tries an exact node-name match first; otherwise it
matches nodes whose demangled name starts with the name followed by `::h`,
and with more than one such hit reports an error and leaves the graph
unfiltered; with a unique hit the graph is replaced by the subgraph of
nodes reachable by depth-first traversal, so edges A→B, A→C, D→E filtered
from A keep exactly A, B, C. -/
theorem c8_start_filter :
    (∀ (dm : String → String) (g : NGraph) (s : String) (i : Nat),
      g.names.findIdx? (fun n => n == s) = some i →
      startLookup dm g s = some i) ∧
    (∀ (dm : String → String) (g : NGraph) (s : String),
      g.names.findIdx? (fun n => n == s) = none →
      (g.names.filter
        (fun key => (s ++ "::h").toList.isPrefixOf (dm key).toList)).length
          > 1 →
      keptNodes dm g (some s) = List.range g.names.length) ∧
    (∀ (dm : String → String) (g : NGraph) (s : String) (i : Nat),
      startLookup dm g s = some i →
      keptNodes dm g (some s) = reachableFrom g i) ∧
    keptNodes id ⟨["A", "B", "C", "D", "E"], [(0, 1), (0, 2), (3, 4)]⟩
      (some "A") = [0, 1, 2] := by
  refine ⟨?_, ?_, ?_, by decide⟩
  · intro dm g s i h
    simp [startLookup, h]
  · intro dm g s hexact hhits
    simp only [keptNodes, startLookup, hexact]
    rw [if_pos hhits]
  · intro dm g s i h
    simp [keptNodes, h]

/-- C8 witness: an exact match is found at its index, an ambiguous prefix
match leaves every node in place, and a unique lookup keeps exactly the
reachable nodes. -/
theorem c8_start_filter_witness :
    startLookup id ⟨["A", "B"], []⟩ "A" = some 0 ∧
    keptNodes id ⟨["foo::h1", "foo::h2"], []⟩ (some "foo") = [0, 1] ∧
    keptNodes id ⟨["A", "B", "C", "D", "E"], [(0, 1), (0, 2), (3, 4)]⟩
      (some "A") = reachableFrom
        ⟨["A", "B", "C", "D", "E"], [(0, 1), (0, 2), (3, 4)]⟩ 0 := by
  refine ⟨?_, ?_, ?_⟩
  · exact c8_start_filter.1 id ⟨["A", "B"], []⟩ "A" 0 (by decide)
  · have h := c8_start_filter.2.1 id ⟨["foo::h1", "foo::h2"], []⟩ "foo"
      (by decide) (by decide)
    simpa using h
  · exact c8_start_filter.2.2.1 id
      ⟨["A", "B", "C", "D", "E"], [(0, 1), (0, 2), (3, 4)]⟩ "A" 0 (by decide)

/-- Helper: every dashed node among the nodes created for one metadata id
carries `Local = Exact 0` (the `?` sentinels are not dashed). -/
lemma metaNodesFor_dashed_zero (hnr : Bool) (k : MetaKind) (hc : Bool) :
    ∀ n ∈ metaNodesFor hnr k hc, n.dashed = true →
      n.nlocal = Local.Exact 0 := by
  intro n hn hd
  have hq : n = mkNode "?" none false → False := by
    intro h
    rw [h] at hd
    exact absurd hd (by decide)
  cases k with
  | fn sig =>
    rcases List.mem_cons.mp hn with rfl | h
    · rfl
    · exfalso
      apply hq
      split at h
      · split at h
        · simpa using h
        · simp at h
      · simpa using h
  | dyn t m =>
    rcases List.mem_cons.mp hn with rfl | h
    · rfl
    · exfalso
      apply hq
      split at h
      · simp at h
      · simpa using h
  | drp t =>
    rcases List.mem_cons.mp hn with rfl | h
    · rfl
    · exfalso
      apply hq
      split at h
      · simp at h
      · simpa using h

/-- C9: every synthetic dispatch node — any node created with the dashed
flag set, in the metadata-driven or the signature-driven path — has
`Local = Exact 0`. -/
theorem c9_synthetic_local_zero :
    ∀ (hasNonRust fmtCallers hasUntyped : Bool)
      (metas : List (MetaKind × Bool))
      (indirectSigs dynamicSigs : List (String × Bool)) (n : NodeW),
      n ∈ metaPathNodes hasNonRust fmtCallers metas ++
          sigPathNodes hasUntyped indirectSigs dynamicSigs →
      n.dashed = true → n.nlocal = Local.Exact 0 := by
  intro hnr fc hu metas ind dyn n hn hd
  rw [List.mem_append] at hn
  rcases hn with hn | hn
  · rw [metaPathNodes, List.mem_append] at hn
    rcases hn with hn | hn
    · split at hn
      · have := List.mem_singleton.mp hn
        subst this
        rfl
      · simp at hn
    · rw [List.mem_flatten] at hn
      obtain ⟨l, hl, hnl⟩ := hn
      rw [List.mem_map] at hl
      obtain ⟨km, hkm, rfl⟩ := hl
      exact metaNodesFor_dashed_zero hnr km.fst km.snd n hnl hd
  · rw [sigPathNodes, List.mem_append] at hn
    rcases hn with hn | hn
    · rw [List.mem_flatten] at hn
      obtain ⟨l, hl, hnl⟩ := hn
      rw [List.mem_map] at hl
      obtain ⟨sc, hsc, rfl⟩ := hl
      split at hnl
      · rcases List.mem_cons.mp hnl with rfl | h
        · rfl
        · exfalso
          split at h
          · have := List.mem_singleton.mp h
            subst this
            exact absurd hd (by decide)
          · simp at h
      · simp at hnl
    · rw [List.mem_flatten] at hn
      obtain ⟨l, hl, hnl⟩ := hn
      rw [List.mem_map] at hl
      obtain ⟨sc, hsc, rfl⟩ := hl
      split at hnl
      · have := List.mem_singleton.mp hnl
        subst this
        rfl
      · simp at hnl

/-- C9 witness: a signature-path dispatch node created from a called
indirect-call bucket has `Local = Exact 0`. -/
theorem c9_synthetic_local_zero_witness :
    (mkNode "fn(i32) -> i32*" (some 0) true).nlocal = Local.Exact 0 :=
  c9_synthetic_local_zero false false false [] [("fn(i32) -> i32", true)] []
    (mkNode "fn(i32) -> i32*" (some 0) true) (by decide) (by decide)

/-- Helper invariant for the shared seen-set: folding one callee list keeps
the edge list duplicate-free, provided every recorded edge's target is
already in the seen-set. -/
lemma addCallEdges_inv (caller : Nat) :
    ∀ (callees : List Nat) (st : List Nat × List (Nat × Nat)),
      st.snd.Nodup → (∀ p ∈ st.snd, p.fst = caller ∧ p.snd ∈ st.fst) →
      (addCallEdges caller st callees).snd.Nodup ∧
        ∀ p ∈ (addCallEdges caller st callees).snd,
          p.fst = caller ∧ p.snd ∈ (addCallEdges caller st callees).fst := by
  intro callees
  induction callees with
  | nil =>
    intro st h1 h2
    exact ⟨h1, h2⟩
  | cons c cs ih =>
    intro st h1 h2
    by_cases hc : st.fst.contains c = true
    · have hc' : c ∈ st.fst := by
        simpa using hc
      have hstep : addCallEdges caller st (c :: cs)
          = addCallEdges caller st cs := by
        simp [addCallEdges, hc']
      rw [hstep]
      exact ih st h1 h2
    · have hcm : c ∉ st.fst := by
        simpa using hc
      have hstep : addCallEdges caller st (c :: cs)
          = addCallEdges caller (c :: st.fst, st.snd ++ [(caller, c)]) cs := by
        simp [addCallEdges, hcm]
      rw [hstep]
      apply ih
      · rw [List.nodup_append]
        refine ⟨h1, List.nodup_singleton _, ?_⟩
        intro p hp hp2
        have hmem := (h2 p hp).2
        have hpc : p = (caller, c) := List.mem_singleton.mp hp2
        rw [hpc] at hmem
        exact hcm hmem
      · intro p hp
        rw [List.mem_append] at hp
        rcases hp with hp | hp
        · obtain ⟨h3, h4⟩ := h2 p hp
          exact ⟨h3, List.mem_cons_of_mem _ h4⟩
        · have hpc := List.mem_singleton.mp hp
          subst hpc
          exact ⟨rfl, List.mem_cons_self _ _⟩

/-- C10: the IR direct-call pass and the machine-code branch-and-link and
tail-call passes, sharing one per-caller seen-set, add at most one edge per
(caller, callee) pair: the combined edge list has no duplicates. -/
theorem c10_edge_dedup :
    ∀ (caller : Nat) (irCallees blTargets bTargets : List Nat),
      (callPasses caller irCallees blTargets bTargets).snd.Nodup := by
  intro caller ir bl bs
  obtain ⟨h1, h2⟩ := addCallEdges_inv caller ir ([], []) List.nodup_nil
    (by simp)
  obtain ⟨h3, h4⟩ := addCallEdges_inv caller bl _ h1 h2
  exact (addCallEdges_inv caller bs _ h3 h4).1

end CallStack
